import Mathlib

/-!
Shallow embedding of the inventory allocation engine of the WMS module:
`InventoryService.getTotalStockForProduct`, `InventoryService.reserveInventory`
and `InventoryService.releaseReservedInventory` from
`src/server/lib/services/inventoryService.ts`, together with the
`POST /:id/adjust` route handler of `src/server/routes/wms/inventoryItem.ts`
and its zod `inventoryAdjustmentSchema` from
`src/server/schemas/inventoryItemSchema.ts`.

The database table `wms_inventory_items` is modelled as a list of rows.
Row ids, tenant ids and product ids are natural numbers; the calendar
`expiryDate` is an optional natural (only its order matters); the two
quantity columns are integers (`integer` columns are signed and the JS
code performs unchecked arithmetic on them).  Each `throw` site of the
source is one constructor of an error type, and every operation returns
the post-call table next to its `Except` outcome, so that the state left
behind by a failing call is part of the model.
-/

/-- One row of the `wms_inventory_items` table (the columns the engine
reads or writes; `binId`, batch/lot labels and timestamps are never
inspected by the modelled operations and are omitted). -/
structure InventoryItem where
  id : Nat
  tenantId : Nat
  productId : Nat
  expiryDate : Option Nat
  availableQuantity : Int
  reservedQuantity : Int
deriving DecidableEq, Repr, Inhabited

/-- The inventory table: a list of rows. -/
abbrev InvState := List InventoryItem

/-- The SQL filter of `reserveInventory`:
`productId = ? AND tenantId = ? AND availableQuantity > 0`. -/
def availableCandidates (st : InvState) (productId tenantId : Nat) : InvState :=
  st.filter fun r =>
    r.productId == productId && r.tenantId == tenantId && decide (r.availableQuantity > 0)

/-- The comparison realised by `ORDER BY expiryDate ASC NULLS LAST`:
dated rows ascending by date, rows without an expiry date after all
dated rows. -/
def fefoLE (a b : InventoryItem) : Bool :=
  match a.expiryDate, b.expiryDate with
  | some d, some e => d ≤ e
  | some _, none => true
  | none, some _ => false
  | none, none => true

/-- Insertion step of the stable sort realising `ORDER BY ... ASC NULLS LAST`. -/
def fefoInsert (x : InventoryItem) : InvState → InvState
  | [] => [x]
  | y :: ys => if fefoLE x y then x :: y :: ys else y :: fefoInsert x ys

/-- Stable sort by `expiryDate ASC NULLS LAST` (ties keep table order;
the source leaves tie order to the database, which the spec declares
implementation-accidental). -/
def fefoSort : InvState → InvState
  | [] => []
  | x :: xs => fefoInsert x (fefoSort xs)

/-- The single `throw` site of `reserveInventory`:
`Insufficient stock. Could not reserve N units`, carrying the unmet
remaining quantity. -/
inductive ReserveError where
  | insufficientStock (remaining : Int)
deriving DecidableEq, Repr

/-- The `for (const item of availableItems)` loop of `reserveInventory`:
threads the table, the remaining demand and the `reservations` array.
Each step breaks when `remainingQuantity <= 0`, otherwise reserves
`toReserve = min(remainingQuantity, item.availableQuantity)` by an
`UPDATE ... WHERE id = item.id` that writes absolute values computed
from the snapshot row, and pushes `{inventoryItemId, quantity}`. -/
def reserveLoop (items : List InventoryItem) (st : InvState) (remaining : Int)
    (acc : List (Nat × Int)) : InvState × Int × List (Nat × Int) :=
  match items with
  | [] => (st, remaining, acc)
  | item :: rest =>
    if remaining ≤ 0 then (st, remaining, acc)
    else
      let toReserve := min remaining item.availableQuantity
      let st' := st.map fun r =>
        if r.id == item.id then
          { r with availableQuantity := item.availableQuantity - toReserve,
                   reservedQuantity := item.reservedQuantity + toReserve }
        else r
      reserveLoop rest st' (remaining - toReserve) (acc ++ [(item.id, toReserve)])

/-- `InventoryService.reserveInventory(productId, quantity, tenantId)`:
fetch the candidates FEFO-ordered, walk them greedily (mutating row by
row), then throw `Insufficient stock` if demand remains, else return the
reservations.  The post-call table is returned in either case, exactly
as the source leaves it (the updates are plain `db.update` calls with no
surrounding transaction). -/
def reserveInventory (st : InvState) (productId : Nat) (quantity : Int) (tenantId : Nat) :
    InvState × Except ReserveError (List (Nat × Int)) :=
  let availableItems := fefoSort (availableCandidates st productId tenantId)
  let res := reserveLoop availableItems st quantity []
  if res.2.1 > 0 then (res.1, .error (.insufficientStock res.2.1))
  else (res.1, .ok res.2.2)

/-- The two `throw` sites of `releaseReservedInventory`:
`Inventory item not found` and `Cannot release more than reserved quantity`. -/
inductive ReleaseError where
  | itemNotFound
  | cannotReleaseMoreThanReserved
deriving DecidableEq, Repr

/-- `InventoryService.releaseReservedInventory(inventoryItemId, quantity)`:
`SELECT ... WHERE id = ? LIMIT 1` (no tenant filter), throw if absent,
throw if `reservedQuantity < quantity`, otherwise
`UPDATE ... SET availableQuantity = a + q, reservedQuantity = r - q
WHERE id = ?`. -/
def releaseReservedInventory (st : InvState) (inventoryItemId : Nat) (quantity : Int) :
    InvState × Except ReleaseError Unit :=
  match (st.filter fun r => r.id == inventoryItemId).take 1 with
  | [] => (st, .error .itemNotFound)
  | item0 :: _ =>
    if item0.reservedQuantity < quantity then
      (st, .error .cannotReleaseMoreThanReserved)
    else
      (st.map fun r =>
        if r.id == inventoryItemId then
          { r with availableQuantity := item0.availableQuantity + quantity,
                   reservedQuantity := item0.reservedQuantity - quantity }
        else r,
       .ok ())

/-- The `adjustmentType` enum of `inventoryAdjustmentSchema`. -/
inductive AdjustmentType where
  | increase
  | decrease
deriving DecidableEq, Repr

/-- The error responses of the `POST /:id/adjust` handler:
400 `Validation failed`, 404 `Inventory item not found`,
400 `Insufficient stock for this adjustment`. -/
inductive AdjustError where
  | validationFailed
  | itemNotFound
  | insufficientStock
deriving DecidableEq, Repr

/-- The structural part of `inventoryAdjustmentSchema`:
`quantity` an integer at least 1, `reason` non-empty and at most 500
characters (integrality is carried by the `Int` type). -/
def adjustmentInputValid (quantity : Int) (reason : String) : Bool :=
  decide (1 ≤ quantity) && decide (1 ≤ reason.length) && decide (reason.length ≤ 500)

/-- The `POST /:id/adjust` route handler: validate with
`inventoryAdjustmentSchema`, look the row up by
`id = ? AND tenantId = activeTenantId` (404 if absent), compute
`newQuantity` (`increase`: current + quantity; `decrease`: current -
quantity, rejected as insufficient stock when negative), then
`UPDATE ... SET availableQuantity = newQuantity WHERE id = ?` and
return the updated row.  `reservedQuantity` is never written. -/
def adjustInventory (st : InvState) (id activeTenantId : Nat)
    (adjustmentType : AdjustmentType) (quantity : Int) (reason : String) :
    InvState × Except AdjustError InventoryItem :=
  if adjustmentInputValid quantity reason = false then (st, .error .validationFailed)
  else
    match (st.filter fun r => r.id == id && r.tenantId == activeTenantId).take 1 with
    | [] => (st, .error .itemNotFound)
    | existingItem :: _ =>
      let currentQuantity := existingItem.availableQuantity
      let newQuantityOrErr : Except AdjustError Int :=
        match adjustmentType with
        | .increase => .ok (currentQuantity + quantity)
        | .decrease =>
          if currentQuantity - quantity < 0 then .error .insufficientStock
          else .ok (currentQuantity - quantity)
      match newQuantityOrErr with
      | .error e => (st, .error e)
      | .ok newQuantity =>
        (st.map fun r =>
          if r.id == id then { r with availableQuantity := newQuantity } else r,
         .ok { existingItem with availableQuantity := newQuantity })

/-- SQL aggregate `SUM` over the selected rows: `NULL` when no row is
selected, the sum otherwise. -/
def sqlSum (xs : List Int) : Option Int :=
  match xs with
  | [] => none
  | _ => some xs.sum

/-- The row shape returned by `getTotalStockForProduct` (drizzle types
`sum(...)` as nullable). -/
structure StockTotals where
  totalAvailable : Option Int
  totalReserved : Option Int
deriving DecidableEq, Repr

/-- `InventoryService.getTotalStockForProduct(productId, tenantId)`:
an ungrouped aggregate `SELECT`, which yields exactly one result row,
followed by the source's `result[0] || {totalAvailable: 0,
totalReserved: 0}` - the fallback fires only when `result[0]` is
absent, which never happens for an ungrouped aggregate. -/
def getTotalStockForProduct (st : InvState) (productId tenantId : Nat) : StockTotals :=
  let rows := st.filter fun r => r.productId == productId && r.tenantId == tenantId
  let result : List StockTotals :=
    [{ totalAvailable := sqlSum (rows.map (·.availableQuantity)),
       totalReserved := sqlSum (rows.map (·.reservedQuantity)) }]
  match result with
  | r :: _ => r
  | [] => { totalAvailable := some 0, totalReserved := some 0 }

/-- One call against the engine, for reasoning about call sequences. -/
inductive WmsOp where
  | reserve (productId : Nat) (quantity : Int) (tenantId : Nat)
  | release (inventoryItemId : Nat) (quantity : Int)
  | adjust (id activeTenantId : Nat) (t : AdjustmentType) (quantity : Int) (reason : String)

/-- The table left behind by one call (failing calls included, since the
source mutates before it throws). -/
def applyOp (st : InvState) : WmsOp → InvState
  | .reserve p q t => (reserveInventory st p q t).1
  | .release i q => (releaseReservedInventory st i q).1
  | .adjust i t ty q reason => (adjustInventory st i t ty q reason).1

/-- The table left behind by a sequence of calls. -/
def runOps (st : InvState) : List WmsOp → InvState
  | [] => st
  | op :: ops => runOps (applyOp st op) ops

/-- Total `availableQuantity + reservedQuantity` over all rows of one
product within one tenant. -/
def productMass (st : InvState) (productId tenantId : Nat) : Int :=
  ((st.filter fun r => r.productId == productId && r.tenantId == tenantId).map
    fun r => r.availableQuantity + r.reservedQuantity).sum

/-- Signed contribution of one call to `productMass`, as the claim
accounts for it: a successful adjust on a row of the product adds its
quantity (`increase`) or subtracts it (`decrease`); every other call
contributes nothing. -/
def adjustDelta (st : InvState) (productId tenantId : Nat) : WmsOp → Int
  | .adjust i ctid ty q reason =>
    match (adjustInventory st i ctid ty q reason).2 with
    | .ok _ =>
      match (st.filter fun r => r.id == i && r.tenantId == ctid).take 1 with
      | r0 :: _ =>
        if r0.productId == productId && r0.tenantId == tenantId then
          match ty with
          | .increase => q
          | .decrease => -q
        else 0
      | [] => 0
    | .error _ => 0
  | _ => 0

/-- Accumulated `adjustDelta` along a call sequence. -/
def netAdjust (st : InvState) (productId tenantId : Nat) : List WmsOp → Int
  | [] => 0
  | op :: ops => adjustDelta st productId tenantId op + netAdjust (applyOp st op) productId tenantId ops

/-- Pure description of the greedy walk: the `(inventoryItemId,
quantity)` pairs `reserveLoop` pushes, computed from the candidate list
and the demand alone. -/
def greedyTakes (items : List InventoryItem) (q : Int) : List (Nat × Int) :=
  match items with
  | [] => []
  | c :: cs =>
    if q ≤ 0 then []
    else (c.id, min q c.availableQuantity) :: greedyTakes cs (q - min q c.availableQuantity)

/-- Units a reservation list takes from the row with the given id. -/
def takenOf (res : List (Nat × Int)) (i : Nat) : Int :=
  ((res.filter fun p => p.1 == i).map (·.2)).sum

/-- First row of the table with the given id (how both
`releaseReservedInventory` and unique-id reasoning address a row). -/
def findRow (st : InvState) (i : Nat) : Option InventoryItem :=
  (st.filter fun r => r.id == i).head?

/-- Rewrite the tenant of the row(s) with the given id (used to state
that `releaseReservedInventory` is insensitive to the row's tenant). -/
def setTenant (st : InvState) (i : Nat) (t : Nat) : InvState :=
  st.map fun r => if r.id == i then { r with tenantId := t } else r

/-! ### Infrastructure lemmas -/

/-- Structure eta for rows, as a rewriting aid. -/
theorem row_eta (r : InventoryItem) :
    ({ id := r.id, tenantId := r.tenantId, productId := r.productId,
       expiryDate := r.expiryDate, availableQuantity := r.availableQuantity,
       reservedQuantity := r.reservedQuantity } : InventoryItem) = r := rfl

theorem fefoInsert_perm (x : InventoryItem) (l : InvState) :
    List.Perm (fefoInsert x l) (x :: l) := by
  induction l with
  | nil => simp [fefoInsert]
  | cons y ys ih =>
    by_cases h : fefoLE x y
    · simp [fefoInsert, h]
    · simp only [fefoInsert, h]
      simp only [Bool.false_eq_true, if_false]
      exact (ih.cons y).trans (List.Perm.swap x y ys)

theorem fefoSort_perm (l : InvState) : List.Perm (fefoSort l) l := by
  induction l with
  | nil => simp [fefoSort]
  | cons x xs ih =>
    exact (fefoInsert_perm x (fefoSort xs)).trans (ih.cons x)

theorem fefoLE_total (a b : InventoryItem) : fefoLE a b = true ∨ fefoLE b a = true := by
  unfold fefoLE
  cases a.expiryDate with
  | none => cases b.expiryDate <;> simp_all
  | some d =>
    cases b.expiryDate with
    | none => simp
    | some e => simpa using Nat.le_total d e

theorem fefoLE_trans {a b c : InventoryItem} (h1 : fefoLE a b = true)
    (h2 : fefoLE b c = true) : fefoLE a c = true := by
  unfold fefoLE at *
  cases ha : a.expiryDate <;> cases hb : b.expiryDate <;> cases hc : c.expiryDate <;>
    (simp_all; try omega)

theorem fefoInsert_pairwise {x : InventoryItem} {l : InvState}
    (hl : l.Pairwise fun a b => fefoLE a b = true) :
    (fefoInsert x l).Pairwise fun a b => fefoLE a b = true := by
  induction l with
  | nil => simp [fefoInsert]
  | cons y ys ih =>
    by_cases h : fefoLE x y
    · simp only [fefoInsert, h, if_true]
      refine List.Pairwise.cons ?_ hl
      intro z hz
      rcases List.mem_cons.mp hz with hz1 | hz1
      · exact hz1 ▸ h
      · exact fefoLE_trans h (List.rel_of_pairwise_cons hl hz1)
    · simp only [fefoInsert, h]
      simp only [Bool.false_eq_true, if_false]
      have hyx : fefoLE y x = true := by
        rcases fefoLE_total x y with h1 | h1
        · exact absurd h1 h
        · exact h1
      refine List.Pairwise.cons ?_ (ih (List.Pairwise.of_cons hl))
      intro z hz
      rcases List.mem_cons.mp ((fefoInsert_perm x ys).mem_iff.mp hz) with hz1 | hz1
      · exact hz1 ▸ hyx
      · exact List.rel_of_pairwise_cons hl hz1

theorem fefoSort_pairwise (l : InvState) :
    (fefoSort l).Pairwise fun a b => fefoLE a b = true := by
  induction l with
  | nil => simp [fefoSort]
  | cons x xs ih => exact fefoInsert_pairwise ih

theorem mem_availableCandidates {st : InvState} {p t : Nat} {r : InventoryItem} :
    r ∈ availableCandidates st p t ↔
      r ∈ st ∧ r.productId = p ∧ r.tenantId = t ∧ 0 < r.availableQuantity := by
  simp [availableCandidates, List.mem_filter, and_assoc]

theorem candidates_ids_nodup {st : InvState} {p t : Nat}
    (h : (st.map (·.id)).Nodup) :
    ((fefoSort (availableCandidates st p t)).map (·.id)).Nodup := by
  have hsub : (availableCandidates st p t).Sublist st := List.filter_sublist st
  have h1 : ((availableCandidates st p t).map (·.id)).Nodup :=
    (hsub.map (·.id)).nodup h
  have hperm : List.Perm ((fefoSort (availableCandidates st p t)).map (·.id))
      ((availableCandidates st p t).map (·.id)) :=
    (fefoSort_perm (availableCandidates st p t)).map (·.id)
  exact hperm.nodup_iff.mpr h1

theorem mem_fefoSort {l : InvState} {r : InventoryItem} :
    r ∈ fefoSort l ↔ r ∈ l := (fefoSort_perm l).mem_iff

/-- Rows with equal ids in a table with no duplicate ids are equal. -/
theorem row_eq_of_id_eq {st : InvState} (h : (st.map (·.id)).Nodup)
    {a b : InventoryItem} (ha : a ∈ st) (hb : b ∈ st) (hid : a.id = b.id) : a = b :=
  List.inj_on_of_nodup_map h ha hb hid

theorem takenOf_nil (i : Nat) : takenOf [] i = 0 := rfl

theorem takenOf_cons (j : Nat) (t : Int) (rest : List (Nat × Int)) (i : Nat) :
    takenOf ((j, t) :: rest) i = (if j = i then t else 0) + takenOf rest i := by
  by_cases h : j = i
  · simp [takenOf, List.filter_cons, h]
  · simp [takenOf, List.filter_cons, h]

theorem takenOf_eq_zero {res : List (Nat × Int)} {i : Nat}
    (h : i ∉ res.map (·.1)) : takenOf res i = 0 := by
  induction res with
  | nil => rfl
  | cons p rest ih =>
    obtain ⟨j, t⟩ := p
    have hj : j ≠ i := by
      intro he
      exact h (by simp [he])
    rw [takenOf_cons, if_neg hj, ih (fun hm => h (by simp [hm]))]
    simp

theorem takenOf_of_mem {res : List (Nat × Int)} {i : Nat} {t : Int}
    (hnd : (res.map (·.1)).Nodup) (hm : (i, t) ∈ res) : takenOf res i = t := by
  induction res with
  | nil => simp at hm
  | cons p rest ih =>
    obtain ⟨j, u⟩ := p
    rw [List.map_cons] at hnd
    have hnd1 : j ∉ rest.map (·.1) := (List.nodup_cons.mp hnd).1
    have hnd2 : (rest.map (·.1)).Nodup := (List.nodup_cons.mp hnd).2
    rcases List.mem_cons.mp hm with he | hm1
    · have hj : i = j := (Prod.ext_iff.mp he).1
      have hu : t = u := (Prod.ext_iff.mp he).2
      subst hj
      subst hu
      rw [takenOf_cons, if_pos rfl, takenOf_eq_zero hnd1]
      simp
    · have hj : j ≠ i := by
        intro he2
        exact hnd1 (he2 ▸ (List.mem_map.mpr ⟨(i, t), hm1, rfl⟩))
      rw [takenOf_cons, if_neg hj, ih hnd2 hm1]
      simp

theorem greedyTakes_cons (c : InventoryItem) (cs : List InventoryItem) (q : Int) :
    greedyTakes (c :: cs) q =
      if q ≤ 0 then []
      else (c.id, min q c.availableQuantity) ::
        greedyTakes cs (q - min q c.availableQuantity) := rfl

theorem greedyTakes_pos_of_ne_nil {items : List InventoryItem} {q : Int}
    (h : greedyTakes items q ≠ []) : 0 < q := by
  cases items with
  | nil => exact absurd rfl h
  | cons c cs =>
    rw [greedyTakes_cons] at h
    by_cases hq : q ≤ 0
    · exact absurd (if_pos hq) h
    · omega

theorem greedyTakes_length_le (items : List InventoryItem) (q : Int) :
    (greedyTakes items q).length ≤ items.length := by
  induction items generalizing q with
  | nil => simp [greedyTakes]
  | cons c cs ih =>
    rw [greedyTakes_cons]
    by_cases hq : q ≤ 0
    · simp [hq]
    · simpa [hq] using ih (q - min q c.availableQuantity)

theorem greedyTakes_map_fst (items : List InventoryItem) (q : Int) :
    (greedyTakes items q).map (·.1) =
      (items.map (·.id)).take (greedyTakes items q).length := by
  induction items generalizing q with
  | nil => simp [greedyTakes]
  | cons c cs ih =>
    rw [greedyTakes_cons]
    by_cases hq : q ≤ 0
    · simp [hq]
    · simp only [hq, if_false, List.map_cons, List.length_cons, List.take_succ_cons]
      rw [ih]

theorem greedyTakes_fst_mem {items : List InventoryItem} {q : Int} {p : Nat × Int}
    (hp : p ∈ greedyTakes items q) : p.1 ∈ items.map (·.id) := by
  have h1 : p.1 ∈ (greedyTakes items q).map (·.1) := List.mem_map.mpr ⟨p, hp, rfl⟩
  rw [greedyTakes_map_fst] at h1
  exact List.take_subset _ _ h1

theorem greedyTakes_entry_pos {items : List InventoryItem} {q : Int}
    (hpos : ∀ r ∈ items, 0 < r.availableQuantity) {p : Nat × Int}
    (hp : p ∈ greedyTakes items q) : 0 < p.2 := by
  induction items generalizing q with
  | nil => simp [greedyTakes] at hp
  | cons c cs ih =>
    rw [greedyTakes_cons] at hp
    by_cases hq : q ≤ 0
    · simp [hq] at hp
    · rw [if_neg hq] at hp
      rcases List.mem_cons.mp hp with he | hm
      · have hc : 0 < c.availableQuantity := hpos c (List.mem_cons_self c cs)
        have : 0 < min q c.availableQuantity := lt_min (by omega) hc
        rw [he]
        exact this
      · exact ih (fun r hr => hpos r (List.mem_cons_of_mem c hr)) hm

theorem greedyTakes_sum_le (items : List InventoryItem) (q : Int) :
    ((greedyTakes items q).map (·.2)).sum ≤ max q 0 := by
  induction items generalizing q with
  | nil => simp [greedyTakes, le_max_right]
  | cons c cs ih =>
    rw [greedyTakes_cons]
    by_cases hq : q ≤ 0
    · simp [hq, le_max_right]
    · rw [if_neg hq]
      have h1 := ih (q - min q c.availableQuantity)
      have ht : min q c.availableQuantity ≤ q := min_le_left _ _
      have h2 : max (q - min q c.availableQuantity) 0 = q - min q c.availableQuantity :=
        max_eq_left (by omega)
      have h3 : max q 0 = q := max_eq_left (by omega)
      rw [h2] at h1
      rw [h3]
      simp only [List.map_cons, List.sum_cons]
      omega

theorem min_eq_snd_of_lt {q a : Int} (h : min q a < q) : min q a = a := by
  rcases le_total q a with hle | hle
  · rw [min_eq_left hle] at h
    omega
  · exact min_eq_right hle

theorem greedyTakes_getElem (items : List InventoryItem) (q : Int) (k : Nat)
    (e : Nat × Int) (he : (greedyTakes items q)[k]? = some e) :
    ∃ c, items[k]? = some c ∧ e.1 = c.id ∧
      e.2 = min (q - (((greedyTakes items q).take k).map (·.2)).sum)
              c.availableQuantity := by
  induction items generalizing q k with
  | nil => simp [greedyTakes] at he
  | cons c cs ih =>
    rw [greedyTakes_cons] at he ⊢
    by_cases hq : q ≤ 0
    · simp [hq] at he
    · rw [if_neg hq] at he ⊢
      cases k with
      | zero =>
        simp only [List.getElem?_cons_zero, Option.some.injEq] at he
        refine ⟨c, by simp, ?_, ?_⟩
        · rw [← he]
        · rw [← he]
          simp
      | succ k1 =>
        simp only [List.getElem?_cons_succ] at he ⊢
        obtain ⟨c1, hc1, hfst, hsnd⟩ := ih (q - min q c.availableQuantity) k1 he
        refine ⟨c1, hc1, hfst, ?_⟩
        rw [hsnd, List.take_succ_cons, List.map_cons, List.sum_cons]
        ring_nf

theorem greedyTakes_full_before (items : List InventoryItem) (q : Int) (j k : Nat)
    (hjk : j < k) (hk : ((greedyTakes items q)[k]?).isSome = true) :
    ∃ c, items[j]? = some c ∧
      (greedyTakes items q)[j]? = some (c.id, c.availableQuantity) := by
  induction items generalizing q j k with
  | nil => simp [greedyTakes] at hk
  | cons c cs ih =>
    rw [greedyTakes_cons] at hk ⊢
    by_cases hq : q ≤ 0
    · simp [hq] at hk
    · rw [if_neg hq] at hk ⊢
      cases k with
      | zero => omega
      | succ k1 =>
        simp only [List.getElem?_cons_succ] at hk
        cases j with
        | zero =>
          have hne : greedyTakes cs (q - min q c.availableQuantity) ≠ [] := by
            intro hnil
            rw [hnil] at hk
            simp at hk
          have hpos : 0 < q - min q c.availableQuantity := greedyTakes_pos_of_ne_nil hne
          have hmin : min q c.availableQuantity = c.availableQuantity :=
            min_eq_snd_of_lt (by omega)
          refine ⟨c, by simp, ?_⟩
          rw [hmin]
          simp
        | succ j1 =>
          simp only [List.getElem?_cons_succ]
          exact ih (q - min q c.availableQuantity) j1 k1 (by omega) hk

theorem map_ids_of_id_preserving (st : InvState) (u : InventoryItem → InventoryItem)
    (hu : ∀ r, (u r).id = r.id) : (st.map u).map (·.id) = st.map (·.id) := by
  rw [List.map_map]
  exact List.map_congr_left fun r _ => hu r


theorem reserveLoop_nil (st : InvState) (q : Int) (acc : List (Nat × Int)) :
    reserveLoop [] st q acc = (st, q, acc) := rfl

theorem reserveLoop_cons (c : InventoryItem) (cs : List InventoryItem) (st : InvState)
    (q : Int) (acc : List (Nat × Int)) :
    reserveLoop (c :: cs) st q acc =
      if q ≤ 0 then (st, q, acc)
      else
        reserveLoop cs
          (st.map fun r =>
            if r.id == c.id then
              { r with
                availableQuantity := c.availableQuantity - min q c.availableQuantity,
                reservedQuantity := c.reservedQuantity + min q c.availableQuantity }
            else r)
          (q - min q c.availableQuantity)
          (acc ++ [(c.id, min q c.availableQuantity)]) := rfl

/-- Characterisation of the reservation loop: its effect on the table is
exactly a per-row subtraction of `takenOf`, the remaining demand drops
by the sum of the takes, and the pushed pairs are `greedyTakes` of the
walked list.  Requires unique row ids (the table's primary key) and that
the walked items are rows of the table. -/
theorem reserveLoop_spec (items : List InventoryItem) :
    ∀ (st : InvState) (q : Int) (acc : List (Nat × Int)),
      (st.map (·.id)).Nodup →
      (∀ r ∈ items, r ∈ st) →
      (items.map (·.id)).Nodup →
      reserveLoop items st q acc =
        (st.map fun r =>
          { r with
            availableQuantity := r.availableQuantity - takenOf (greedyTakes items q) r.id,
            reservedQuantity := r.reservedQuantity + takenOf (greedyTakes items q) r.id },
         q - ((greedyTakes items q).map (·.2)).sum,
         acc ++ greedyTakes items q) := by
  induction items with
  | nil =>
    intro st q acc _ _ _
    rw [reserveLoop_nil]
    have h1 : st.map (fun r =>
        { r with
          availableQuantity := r.availableQuantity - takenOf (greedyTakes [] q) r.id,
          reservedQuantity := r.reservedQuantity + takenOf (greedyTakes [] q) r.id })
        = st :=
      List.map_id'' (fun r => by simp [greedyTakes, takenOf_nil]) st
    rw [h1]
    simp [greedyTakes]
  | cons c cs ih =>
    intro st q acc hstids hmem hids
    rw [reserveLoop_cons, greedyTakes_cons]
    by_cases hq : q ≤ 0
    · rw [if_pos hq, if_pos hq]
      have h1 : st.map (fun r =>
          { r with
            availableQuantity := r.availableQuantity - takenOf [] r.id,
            reservedQuantity := r.reservedQuantity + takenOf [] r.id })
          = st :=
        List.map_id'' (fun r => by simp [takenOf_nil]) st
      rw [h1]
      simp
    · rw [if_neg hq, if_neg hq]
      set t := min q c.availableQuantity with ht
      set u : InventoryItem → InventoryItem := fun r =>
        if r.id == c.id then
          { r with
            availableQuantity := c.availableQuantity - t,
            reservedQuantity := c.reservedQuantity + t }
        else r with hu
      have huid : ∀ r, (u r).id = r.id := by
        intro r
        rw [hu]
        by_cases h : r.id == c.id
        · simp [h]
        · simp [h]
      have hstids1 : ((st.map u).map (·.id)).Nodup := by
        rw [map_ids_of_id_preserving st u huid]
        exact hstids
      have hcid : c.id ∉ cs.map (·.id) := by
        have h2 : (c.id :: cs.map (·.id)).Nodup := by simpa using hids
        exact (List.nodup_cons.mp h2).1
      have hids1 : (cs.map (·.id)).Nodup := by
        have h2 : (c.id :: cs.map (·.id)).Nodup := by simpa using hids
        exact (List.nodup_cons.mp h2).2
      have hmem1 : ∀ r ∈ cs, r ∈ st.map u := by
        intro r hr
        have hrid : r.id ≠ c.id := fun he => hcid (he ▸ List.mem_map.mpr ⟨r, hr, rfl⟩)
        have hur : u r = r := by
          rw [hu]
          simp [hrid]
        exact hur ▸ List.mem_map.mpr ⟨r, hmem r (List.mem_cons_of_mem c hr), rfl⟩
      rw [ih (st.map u) (q - t) (acc ++ [(c.id, t)]) hstids1 hmem1 hids1]
      set gt1 := greedyTakes cs (q - t) with hgt1
      have hstate : (st.map u).map (fun r =>
          { r with
            availableQuantity := r.availableQuantity - takenOf gt1 r.id,
            reservedQuantity := r.reservedQuantity + takenOf gt1 r.id }) =
        st.map (fun r =>
          { r with
            availableQuantity := r.availableQuantity - takenOf ((c.id, t) :: gt1) r.id,
            reservedQuantity := r.reservedQuantity + takenOf ((c.id, t) :: gt1) r.id }) := by
        rw [List.map_map]
        refine List.map_congr_left ?_
        intro r hr
        by_cases hrc : r.id = c.id
        · have hrceq : r = c :=
            row_eq_of_id_eq hstids hr (hmem c (List.mem_cons_self c cs)) hrc
          subst hrceq
          have hz : takenOf gt1 r.id = 0 := by
            refine takenOf_eq_zero ?_
            intro hin
            rcases List.mem_map.mp hin with ⟨p, hp, hpid⟩
            exact hcid (hrc ▸ hpid ▸ greedyTakes_fst_mem hp)
          simp [hu, takenOf_cons, hz]
        · have hur : u r = r := by
            rw [hu]
            simp [hrc]
          simp only [Function.comp_apply, hur, takenOf_cons, if_neg (Ne.symm hrc), zero_add]
      rw [hstate]
      simp only [Prod.mk.injEq]
      refine ⟨trivial, ?_, ?_⟩
      · simp only [List.map_cons, List.sum_cons]
        ring
      · simp

/-- Top-level characterisation of `reserveInventory` for tables with
unique row ids. -/
theorem reserveInventory_spec (st : InvState) (p : Nat) (q : Int) (tid : Nat)
    (hids : (st.map (·.id)).Nodup) :
    reserveInventory st p q tid =
      (st.map fun r =>
        { r with
          availableQuantity := r.availableQuantity -
            takenOf (greedyTakes (fefoSort (availableCandidates st p tid)) q) r.id,
          reservedQuantity := r.reservedQuantity +
            takenOf (greedyTakes (fefoSort (availableCandidates st p tid)) q) r.id },
       if q - ((greedyTakes (fefoSort (availableCandidates st p tid)) q).map (·.2)).sum > 0
       then .error (.insufficientStock
         (q - ((greedyTakes (fefoSort (availableCandidates st p tid)) q).map (·.2)).sum))
       else .ok (greedyTakes (fefoSort (availableCandidates st p tid)) q)) := by
  have hmem : ∀ r ∈ fefoSort (availableCandidates st p tid), r ∈ st := by
    intro r hr
    exact (mem_availableCandidates.mp (mem_fefoSort.mp hr)).1
  have hcand : ((fefoSort (availableCandidates st p tid)).map (·.id)).Nodup :=
    candidates_ids_nodup hids
  have hr := reserveLoop_spec (fefoSort (availableCandidates st p tid)) st q [] hids hmem hcand
  simp only [reserveInventory, hr]
  by_cases hc :
      q - ((greedyTakes (fefoSort (availableCandidates st p tid)) q).map (·.2)).sum > 0
  · have hc2 : ((greedyTakes (fefoSort (availableCandidates st p tid)) q).map (·.2)).sum < q :=
      sub_pos.mp hc
    simp [hc, hc2]
  · have hc2 : ¬ ((greedyTakes (fefoSort (availableCandidates st p tid)) q).map (·.2)).sum < q :=
      fun h => hc (sub_pos.mpr h)
    simp [hc, hc2]

theorem productMass_cons (r : InventoryItem) (st : InvState) (pid tid : Nat) :
    productMass (r :: st) pid tid =
      (if r.productId == pid && r.tenantId == tid then
        r.availableQuantity + r.reservedQuantity else 0) + productMass st pid tid := by
  by_cases h : r.productId == pid && r.tenantId == tid
  · simp [productMass, List.filter_cons, h]
  · simp [productMass, List.filter_cons, h]

/-- A per-row rewrite that keeps product, tenant and the sum of the two
quantities keeps every product total. -/
theorem productMass_map_eq (st : InvState) (pid tid : Nat)
    (g : InventoryItem → InventoryItem)
    (h : ∀ r ∈ st, (g r).productId = r.productId ∧ (g r).tenantId = r.tenantId ∧
      (g r).availableQuantity + (g r).reservedQuantity =
        r.availableQuantity + r.reservedQuantity) :
    productMass (st.map g) pid tid = productMass st pid tid := by
  induction st with
  | nil => rfl
  | cons r st ih =>
    rw [List.map_cons, productMass_cons, productMass_cons]
    obtain ⟨h1, h2, h3⟩ := h r (List.mem_cons_self r st)
    rw [h1, h2, h3, ih fun x hx => h x (List.mem_cons_of_mem r hx)]

/-- Applying an update to the rows with one id changes one product total
by exactly the mass delta of the unique matching row. -/
theorem productMass_mapUpdate (st : InvState) (pid tid : Nat) (i : Nat)
    (u : InventoryItem → InventoryItem)
    (hu : ∀ r, (u r).productId = r.productId ∧ (u r).tenantId = r.tenantId)
    (hids : (st.map (·.id)).Nodup) (r0 : InventoryItem) (hr0 : r0 ∈ st)
    (hid : r0.id = i) :
    productMass (st.map fun r => if r.id == i then u r else r) pid tid =
      productMass st pid tid +
        (if r0.productId == pid && r0.tenantId == tid then
          ((u r0).availableQuantity + (u r0).reservedQuantity) -
            (r0.availableQuantity + r0.reservedQuantity)
         else 0) := by
  induction st with
  | nil => simp at hr0
  | cons x st ih =>
    have hxid : x.id ∉ st.map (·.id) := by
      have h2 : (x.id :: st.map (·.id)).Nodup := by simpa using hids
      exact (List.nodup_cons.mp h2).1
    have hids1 : (st.map (·.id)).Nodup := by
      have h2 : (x.id :: st.map (·.id)).Nodup := by simpa using hids
      exact (List.nodup_cons.mp h2).2
    rcases List.mem_cons.mp hr0 with he | hm
    · have hxi : x.id = i := by
        rw [← he]
        exact hid
      have hxeq : (x.id == i) = true := by simp [hxi]
      rw [List.map_cons]
      simp only [hxeq, if_true]
      rw [productMass_cons, productMass_cons]
      have hrest : st.map (fun r => if r.id == i then u r else r) = st := by
        have h5 : st.map (fun r => if r.id == i then u r else r) =
            st.map (fun r => r) := by
          refine List.map_congr_left ?_
          intro r hr
          have h4 : r.id ≠ i := by
            intro he2
            apply hxid
            rw [hxi, ← he2]
            exact List.mem_map.mpr ⟨r, hr, rfl⟩
          simp [h4]
        rw [h5, List.map_id']
      rw [hrest, he, (hu x).1, (hu x).2]
      by_cases hmatch : x.productId == pid && x.tenantId == tid
      · rw [if_pos hmatch, if_pos hmatch, if_pos hmatch]
        ring
      · rw [if_neg hmatch, if_neg hmatch, if_neg hmatch]
        ring
    · have hxne : (x.id == i) = false := by
        have h3 : x.id ≠ i := by
          intro he2
          apply hxid
          rw [he2, ← hid]
          exact List.mem_map.mpr ⟨r0, hm, rfl⟩
        simpa using h3
      rw [List.map_cons]
      simp only [hxne, Bool.false_eq_true, if_false]
      rw [productMass_cons, productMass_cons, ih hids1 hm]
      ring

theorem findRow_map (st : InvState) (g : InventoryItem → InventoryItem)
    (hg : ∀ r, (g r).id = r.id) (i : Nat) :
    findRow (st.map g) i = (findRow st i).map g := by
  induction st with
  | nil => rfl
  | cons x xs ih =>
    by_cases h : x.id == i
    · have h2 : ((g x).id == i) = true := by
        rw [hg x]
        exact h
      simp [findRow, List.filter_cons, h, h2]
    · have h2 : ((g x).id == i) = false := by
        rw [hg x]
        simpa using h
      simp only [findRow, List.map_cons, List.filter_cons, h2, h] at *
      simpa using ih

theorem findRow_eq_self {st : InvState} (hids : (st.map (·.id)).Nodup)
    {r : InventoryItem} (hr : r ∈ st) : findRow st r.id = some r := by
  induction st with
  | nil => simp at hr
  | cons x xs ih =>
    have hxid : x.id ∉ xs.map (·.id) := by
      have h2 : (x.id :: xs.map (·.id)).Nodup := by simpa using hids
      exact (List.nodup_cons.mp h2).1
    have hids1 : (xs.map (·.id)).Nodup := by
      have h2 : (x.id :: xs.map (·.id)).Nodup := by simpa using hids
      exact (List.nodup_cons.mp h2).2
    rcases List.mem_cons.mp hr with he | hm
    · subst he
      simp [findRow, List.filter_cons]
    · have hne : (x.id == r.id) = false := by
        have h3 : x.id ≠ r.id := by
          intro he2
          exact hxid (he2 ▸ List.mem_map.mpr ⟨r, hm, rfl⟩)
        simpa using h3
      simp only [findRow, List.filter_cons, hne, Bool.false_eq_true, if_false]
      exact ih hids1 hm

/-- One call changes a product's total mass by exactly its
`adjustDelta` (zero for `reserve` and `release`, signed quantity for a
successful adjust on a row of the product). -/
theorem productMass_applyOp (st : InvState) (pid tid : Nat) (op : WmsOp)
    (hids : (st.map (·.id)).Nodup) :
    productMass (applyOp st op) pid tid =
      productMass st pid tid + adjustDelta st pid tid op := by
  cases op with
  | reserve p q t =>
    have hd : adjustDelta st pid tid (.reserve p q t) = 0 := rfl
    rw [hd, add_zero]
    have hfst : (reserveInventory st p q t).1 = st.map fun r =>
        { r with
          availableQuantity := r.availableQuantity -
            takenOf (greedyTakes (fefoSort (availableCandidates st p t)) q) r.id,
          reservedQuantity := r.reservedQuantity +
            takenOf (greedyTakes (fefoSort (availableCandidates st p t)) q) r.id } :=
      congrArg Prod.fst (reserveInventory_spec st p q t hids)
    show productMass (reserveInventory st p q t).1 pid tid = _
    rw [hfst]
    refine productMass_map_eq st pid tid _ ?_
    intro r _
    refine ⟨rfl, rfl, ?_⟩
    ring
  | release i q =>
    have hd : adjustDelta st pid tid (.release i q) = 0 := rfl
    rw [hd, add_zero]
    show productMass (releaseReservedInventory st i q).1 pid tid = _
    rcases hF : (st.filter fun r => r.id == i).take 1 with _ | ⟨item0, rest⟩
    · simp [releaseReservedInventory, hF]
    · have hmem0 : item0 ∈ st := by
        have h1 : item0 ∈ st.filter fun r => r.id == i :=
          List.take_subset _ _ (hF ▸ List.mem_cons_self _ _)
        exact List.mem_of_mem_filter h1
      have hid0 : item0.id = i := by
        have h1 : item0 ∈ st.filter fun r => r.id == i :=
          List.take_subset _ _ (hF ▸ List.mem_cons_self _ _)
        simpa using (List.mem_filter.mp h1).2
      by_cases hlt : item0.reservedQuantity < q
      · simp [releaseReservedInventory, hF, hlt]
      · simp only [releaseReservedInventory, hF, hlt, if_false]
        have hup := productMass_mapUpdate st pid tid i
          (fun r => { r with
            availableQuantity := item0.availableQuantity + q,
            reservedQuantity := item0.reservedQuantity - q })
          (fun r => ⟨rfl, rfl⟩) hids item0 hmem0 hid0
        rw [hup]
        have hz : ((item0.availableQuantity + q) + (item0.reservedQuantity - q)) -
            (item0.availableQuantity + item0.reservedQuantity) = 0 := by ring
        simp [hz]
  | adjust i ctid ty q reason =>
    show productMass (adjustInventory st i ctid ty q reason).1 pid tid = _
    by_cases hv : adjustmentInputValid q reason = false
    · simp [adjustInventory, adjustDelta, hv]
    · rcases hF : (st.filter fun r => r.id == i && r.tenantId == ctid).take 1 with _ | ⟨ex, rest⟩
      · simp [adjustInventory, adjustDelta, hv, hF]
      · have hmem0 : ex ∈ st := by
          have h1 : ex ∈ st.filter fun r => r.id == i && r.tenantId == ctid :=
            List.take_subset _ _ (hF ▸ List.mem_cons_self _ _)
          exact List.mem_of_mem_filter h1
        have hid0 : ex.id = i := by
          have h1 : ex ∈ st.filter fun r => r.id == i && r.tenantId == ctid :=
            List.take_subset _ _ (hF ▸ List.mem_cons_self _ _)
          have h2 := (List.mem_filter.mp h1).2
          simp at h2
          exact h2.1
        cases ty with
        | increase =>
          have hpost : (adjustInventory st i ctid .increase q reason).1 =
              st.map (fun r => if r.id == i then
                { r with availableQuantity := ex.availableQuantity + q } else r) := by
            simp [adjustInventory, hv, hF]
          have hdelta : adjustDelta st pid tid (.adjust i ctid .increase q reason) =
              (if (ex.productId == pid && ex.tenantId == tid) = true then q else 0) := by
            simp [adjustDelta, adjustInventory, hv, hF]
          rw [hpost, hdelta]
          have hup := productMass_mapUpdate st pid tid i
            (fun r => { r with availableQuantity := ex.availableQuantity + q })
            (fun r => ⟨rfl, rfl⟩) hids ex hmem0 hid0
          beta_reduce at hup
          rw [hup]
          by_cases hmatch : (ex.productId == pid && ex.tenantId == tid) = true
          · rw [if_pos hmatch, if_pos hmatch]
            ring
          · rw [if_neg hmatch, if_neg hmatch]
        | decrease =>
          by_cases hneg : ex.availableQuantity - q < 0
          · simp [adjustInventory, adjustDelta, hv, hF, hneg]
          · have hpost : (adjustInventory st i ctid .decrease q reason).1 =
                st.map (fun r => if r.id == i then
                  { r with availableQuantity := ex.availableQuantity - q } else r) := by
              simp [adjustInventory, hv, hF, hneg]
            have hdelta : adjustDelta st pid tid (.adjust i ctid .decrease q reason) =
                (if (ex.productId == pid && ex.tenantId == tid) = true then -q else 0) := by
              simp [adjustDelta, adjustInventory, hv, hF, hneg]
            rw [hpost, hdelta]
            have hup := productMass_mapUpdate st pid tid i
              (fun r => { r with availableQuantity := ex.availableQuantity - q })
              (fun r => ⟨rfl, rfl⟩) hids ex hmem0 hid0
            beta_reduce at hup
            rw [hup]
            by_cases hmatch : (ex.productId == pid && ex.tenantId == tid) = true
            · rw [if_pos hmatch, if_pos hmatch]
              ring
            · rw [if_neg hmatch, if_neg hmatch]

/-- No engine call creates, deletes or renames rows: the id column of
the table is untouched by every operation. -/
theorem applyOp_map_id (st : InvState) (op : WmsOp)
    (hids : (st.map (·.id)).Nodup) :
    (applyOp st op).map (·.id) = st.map (·.id) := by
  cases op with
  | reserve p q t =>
    have hfst : (reserveInventory st p q t).1 = st.map fun r =>
        { r with
          availableQuantity := r.availableQuantity -
            takenOf (greedyTakes (fefoSort (availableCandidates st p t)) q) r.id,
          reservedQuantity := r.reservedQuantity +
            takenOf (greedyTakes (fefoSort (availableCandidates st p t)) q) r.id } :=
      congrArg Prod.fst (reserveInventory_spec st p q t hids)
    show ((reserveInventory st p q t).1).map (·.id) = _
    rw [hfst]
    exact map_ids_of_id_preserving st _ fun r => rfl
  | release i q =>
    show ((releaseReservedInventory st i q).1).map (·.id) = _
    rcases hF : (st.filter fun r => r.id == i).take 1 with _ | ⟨item0, rest⟩
    · simp [releaseReservedInventory, hF]
    · by_cases hlt : item0.reservedQuantity < q
      · simp [releaseReservedInventory, hF, hlt]
      · simp only [releaseReservedInventory, hF, hlt, if_false]
        refine map_ids_of_id_preserving st _ ?_
        intro r
        by_cases h : r.id == i
        · simp [h]
        · simp [h]
  | adjust i ctid ty q reason =>
    show ((adjustInventory st i ctid ty q reason).1).map (·.id) = _
    by_cases hv : adjustmentInputValid q reason = false
    · simp [adjustInventory, hv]
    · rcases hF : (st.filter fun r => r.id == i && r.tenantId == ctid).take 1 with _ | ⟨ex, rest⟩
      · simp [adjustInventory, hv, hF]
      · cases ty with
        | increase =>
          have hpost : (adjustInventory st i ctid .increase q reason).1 =
              st.map (fun r => if r.id == i then
                { r with availableQuantity := ex.availableQuantity + q } else r) := by
            simp [adjustInventory, hv, hF]
          rw [hpost]
          refine map_ids_of_id_preserving st _ ?_
          intro r
          by_cases h : r.id == i
          · simp [h]
          · simp [h]
        | decrease =>
          by_cases hneg : ex.availableQuantity - q < 0
          · simp [adjustInventory, hv, hF, hneg]
          · have hpost : (adjustInventory st i ctid .decrease q reason).1 =
                st.map (fun r => if r.id == i then
                  { r with availableQuantity := ex.availableQuantity - q } else r) := by
              simp [adjustInventory, hv, hF, hneg]
            rw [hpost]
            refine map_ids_of_id_preserving st _ ?_
            intro r
            by_cases h : r.id == i
            · simp [h]
            · simp [h]

theorem take_one_of_head (l : InvState) (r0 : InventoryItem) (h : l.head? = some r0) :
    l.take 1 = [r0] := by
  cases l with
  | nil => simp at h
  | cons x xs =>
    simp only [List.head?_cons, Option.some.injEq] at h
    rw [h]
    rfl

instance instDecEqExcept {e a : Type} [DecidableEq e] [DecidableEq a] :
    DecidableEq (Except e a) := fun x y =>
  match x, y with
  | .error e1, .error e2 =>
    if h : e1 = e2 then isTrue (by rw [h]) else isFalse (by simp [h])
  | .ok a1, .ok a2 =>
    if h : a1 = a2 then isTrue (by rw [h]) else isFalse (by simp [h])
  | .error _, .ok _ => isFalse (by simp)
  | .ok _, .error _ => isFalse (by simp)

/-! ### Claims -/

/-- Claim C1 (code-bug evidence): with two candidate rows holding 5 and
3 available units, `reserveInventory(1, 9, 1)` throws the
insufficient-stock error (shortfall 1), yet both rows have been fully
consumed - `availableQuantity` 0 and `reservedQuantity` 5 and 3 - so
the partial reservation stays committed in the table: the updates run
one `db.update` at a time with no transaction and no compensation. -/
theorem reserve_shortfall_leaves_partial_state :
    reserveInventory
        ([⟨1, 1, 1, none, 5, 0⟩, ⟨2, 1, 1, none, 3, 0⟩] : InvState) 1 9 1 =
      ([⟨1, 1, 1, none, 0, 5⟩, ⟨2, 1, 1, none, 0, 3⟩],
        .error (.insufficientStock 1)) ∧
    (reserveInventory
        ([⟨1, 1, 1, none, 5, 0⟩, ⟨2, 1, 1, none, 3, 0⟩] : InvState) 1 9 1).1 ≠
      ([⟨1, 1, 1, none, 5, 0⟩, ⟨2, 1, 1, none, 3, 0⟩] : InvState) := by
  decide

/-- Claim C7 counterexample: `reserveInventory` performs no
`quantity > 0` validation; with quantity 0 it returns successfully with
an empty reservation list instead of failing with `InvalidArgument`. -/
theorem reserve_nonpositive_quantity_succeeds_cex :
    reserveInventory ([⟨1, 1, 1, none, 5, 0⟩] : InvState) 1 0 1 =
      ([⟨1, 1, 1, none, 5, 0⟩], .ok []) := by
  decide

/-- Claim C7 (amended): for every quantity ≤ 0, `reserveInventory`
returns successfully with an empty reservation list and mutates no
row - the loop breaks before its first iteration and the post-loop
shortfall check does not fire. -/
theorem reserve_nonpositive_quantity_noop (st : InvState) (p tid : Nat) (q : Int)
    (hq : q ≤ 0) : reserveInventory st p q tid = (st, .ok []) := by
  have hloop : reserveLoop (fefoSort (availableCandidates st p tid)) st q [] =
      (st, q, []) := by
    cases fefoSort (availableCandidates st p tid) with
    | nil => rfl
    | cons c cs => exact (reserveLoop_cons c cs st q []).trans (if_pos hq)
  have hng : ¬ (q > 0) := not_lt.mpr hq
  simp [reserveInventory, hloop, hng]

theorem reserve_nonpositive_quantity_noop_witness :
    reserveInventory ([⟨1, 1, 1, none, 5, 0⟩] : InvState) 1 (-2) 1 =
      ([⟨1, 1, 1, none, 5, 0⟩], .ok []) :=
  reserve_nonpositive_quantity_noop ([⟨1, 1, 1, none, 5, 0⟩] : InvState) 1 1 (-2)
    (by decide)

/-- Claim C8 (code-bug evidence): when no `InventoryItem` row exists
for the product and tenant - whether the table is empty or holds only
other products - `getTotalStockForProduct` returns `null` totals, not
zero: SQL `SUM` over zero rows is `NULL`, the ungrouped aggregate still
returns one result row, and the `result[0] || {totalAvailable: 0,
totalReserved: 0}` fallback therefore never fires. -/
theorem getTotalStock_no_rows_returns_null :
    getTotalStockForProduct ([] : InvState) 1 1 =
      { totalAvailable := none, totalReserved := none } ∧
    getTotalStockForProduct ([⟨9, 1, 2, none, 5, 0⟩] : InvState) 1 1 =
      { totalAvailable := none, totalReserved := none } := by
  decide

/-- Claim C9 counterexample: the only row belongs to tenant 1, so for a
caller of tenant 2 it is a foreign row; `releaseReservedInventory(7, 1)`
nevertheless succeeds against it and mutates it, because the function
takes no tenant argument and applies no tenant filter. -/
theorem release_cross_tenant_succeeds_cex :
    (∀ r ∈ ([⟨7, 1, 1, none, 0, 1⟩] : InvState), r.tenantId ≠ 2) ∧
    releaseReservedInventory ([⟨7, 1, 1, none, 0, 1⟩] : InvState) 7 1 =
      ([⟨7, 1, 1, none, 1, 0⟩], .ok ()) ∧
    ([⟨7, 1, 1, none, 1, 0⟩] : InvState) ≠ ([⟨7, 1, 1, none, 0, 1⟩] : InvState) := by
  decide

/-- Claim C10: a release quantity ≤ 0 passes the
`reservedQuantity < quantity` guard against any row with non-negative
`reservedQuantity`; the call succeeds, adds the (non-positive) quantity
to `availableQuantity` and subtracts it from `reservedQuantity`, and a
negative quantity larger in magnitude than the available stock drives
`availableQuantity` below zero. -/
theorem release_nonpositive_quantity_moves_mass (st : InvState) (i : Nat) (q : Int)
    (r0 : InventoryItem) (hr : findRow st i = some r0)
    (hq : q ≤ 0) (hres : 0 ≤ r0.reservedQuantity) :
    releaseReservedInventory st i q =
      (st.map fun r =>
        if r.id == i then
          { r with availableQuantity := r0.availableQuantity + q,
                   reservedQuantity := r0.reservedQuantity - q }
        else r,
       .ok ()) ∧
    (-q > r0.availableQuantity → r0.availableQuantity + q < 0) := by
  have htake : (st.filter fun r => r.id == i).take 1 = [r0] :=
    take_one_of_head _ r0 hr
  have hguard : ¬ (r0.reservedQuantity < q) := by omega
  constructor
  · simp [releaseReservedInventory, htake, hguard]
  · intro h
    omega

theorem release_nonpositive_quantity_moves_mass_witness :
    releaseReservedInventory ([⟨7, 1, 1, none, 2, 3⟩] : InvState) 7 (-4) =
      (([⟨7, 1, 1, none, 2, 3⟩] : InvState).map fun r =>
        if r.id == 7 then
          { r with availableQuantity := (2 : Int) + (-4),
                   reservedQuantity := (3 : Int) - (-4) }
        else r,
       .ok ()) ∧
    (-(-4 : Int) > (2 : Int) → (2 : Int) + (-4) < 0) :=
  release_nonpositive_quantity_moves_mass ([⟨7, 1, 1, none, 2, 3⟩] : InvState) 7 (-4)
    ⟨7, 1, 1, none, 2, 3⟩ (by decide) (by decide) (by decide)

theorem filter_id_map (st : InvState) (g : InventoryItem → InventoryItem)
    (hg : ∀ r, (g r).id = r.id) (i : Nat) :
    (st.map g).filter (fun r => r.id == i) =
      (st.filter fun r => r.id == i).map g := by
  induction st with
  | nil => rfl
  | cons x xs ih =>
    by_cases h : x.id == i
    · have h2 : ((g x).id == i) = true := by
        rw [hg x]
        exact h
      simp [List.filter_cons, h, h2, ih]
    · have h2 : ((g x).id == i) = false := by
        rw [hg x]
        simpa using h
      simp [List.filter_cons, h, h2, ih]


theorem release_eq_of_filter_nil (st : InvState) (i : Nat) (q : Int)
    (hC : (st.filter fun r => r.id == i) = []) :
    releaseReservedInventory st i q = (st, .error .itemNotFound) := by
  simp only [releaseReservedInventory]
  rw [hC]
  rfl

theorem release_eq_of_filter_cons (st : InvState) (i : Nat) (q : Int)
    (item0 : InventoryItem) (rest : InvState)
    (hC : (st.filter fun r => r.id == i) = item0 :: rest) :
    releaseReservedInventory st i q =
      (if item0.reservedQuantity < q then
        (st, .error .cannotReleaseMoreThanReserved)
       else
        (st.map fun r =>
          if r.id == i then
            { r with availableQuantity := item0.availableQuantity + q,
                     reservedQuantity := item0.reservedQuantity - q }
          else r,
         .ok ())) := by
  have htake : (st.filter fun r => r.id == i).take 1 = [item0] := by
    rw [hC]
    rfl
  simp only [releaseReservedInventory]
  rw [htake]

/-- Claim C9 (amended): `releaseReservedInventory` is not tenant-scoped;
its outcome and its effect on the quantity columns are unchanged when
the target row carries any other `tenantId` - rewriting the target
row's tenant commutes with the call, so no tenant is ever protected
from it. -/
theorem release_ignores_row_tenant (st : InvState) (i t : Nat) (q : Int) :
    (releaseReservedInventory (setTenant st i t) i q).2 =
      (releaseReservedInventory st i q).2 ∧
    (releaseReservedInventory (setTenant st i t) i q).1 =
      setTenant (releaseReservedInventory st i q).1 i t := by
  have hg : ∀ r : InventoryItem,
      ((if r.id == i then { r with tenantId := t } else r) : InventoryItem).id = r.id := by
    intro r
    by_cases h : r.id == i
    · simp [h]
    · simp [h]
  have hfilter : (setTenant st i t).filter (fun r => r.id == i) =
      (st.filter fun r => r.id == i).map
        (fun r => if r.id == i then { r with tenantId := t } else r) :=
    filter_id_map st _ hg i
  cases hC : (st.filter fun r => r.id == i) with
  | nil =>
    have hCm : ((setTenant st i t).filter fun r => r.id == i) = [] := by
      rw [hfilter, hC]
      rfl
    rw [release_eq_of_filter_nil (setTenant st i t) i q hCm,
      release_eq_of_filter_nil st i q hC]
    exact ⟨rfl, rfl⟩
  | cons item0 rest =>
    have hid0 : (item0.id == i) = true := by
      have hmem : item0 ∈ st.filter fun r => r.id == i := by
        rw [hC]
        exact List.mem_cons_self _ _
      simpa using (List.mem_filter.mp hmem).2
    have hCm : ((setTenant st i t).filter fun r => r.id == i) =
        ({ item0 with tenantId := t } : InventoryItem) ::
          rest.map (fun r => if r.id == i then { r with tenantId := t } else r) := by
      rw [hfilter, hC]
      have hid0p : item0.id = i := by simpa using hid0
      simp [hid0p]
    have h1 : releaseReservedInventory (setTenant st i t) i q =
        (if item0.reservedQuantity < q then
          (setTenant st i t, .error .cannotReleaseMoreThanReserved)
         else
          ((setTenant st i t).map fun r =>
            if r.id == i then
              { r with availableQuantity := item0.availableQuantity + q,
                       reservedQuantity := item0.reservedQuantity - q }
            else r,
           .ok ())) :=
      release_eq_of_filter_cons (setTenant st i t) i q
        ({ item0 with tenantId := t } : InventoryItem) _ hCm
    have h2 := release_eq_of_filter_cons st i q item0 rest hC
    by_cases hlt : item0.reservedQuantity < q
    · rw [h1, h2, if_pos hlt, if_pos hlt]
      exact ⟨rfl, rfl⟩
    · rw [h1, h2, if_neg hlt, if_neg hlt]
      refine ⟨rfl, ?_⟩
      show (setTenant st i t).map _ = setTenant (st.map _) i t
      simp only [setTenant, List.map_map]
      refine List.map_congr_left ?_
      intro r hr
      by_cases h : r.id = i
      · simp [h]
      · simp [h]

theorem filter_eq_cons_of_findRow {st : InvState} {i : Nat} {r0 : InventoryItem}
    (h : findRow st i = some r0) :
    (st.filter fun r => r.id == i) = r0 :: (st.filter fun r => r.id == i).tail := by
  unfold findRow at h
  cases hC : (st.filter fun r => r.id == i) with
  | nil =>
    rw [hC] at h
    simp at h
  | cons a b =>
    rw [hC] at h
    simp only [List.head?_cons, Option.some.injEq] at h
    rw [h]
    rfl

theorem findRow_mem {st : InvState} {i : Nat} {r0 : InventoryItem}
    (h : findRow st i = some r0) : r0 ∈ st ∧ r0.id = i := by
  have hC := filter_eq_cons_of_findRow h
  have hm : r0 ∈ st.filter fun r => r.id == i := by
    rw [hC]
    exact List.mem_cons_self _ _
  have h2 := List.mem_filter.mp hm
  exact ⟨h2.1, by simpa using h2.2⟩

/-- The post-call table of `reserveInventory` on a table with unique
ids: every row loses `takenOf` of the computed greedy reservation from
`availableQuantity` and gains it on `reservedQuantity`. -/
theorem reserveInventory_fst (st : InvState) (p : Nat) (q : Int) (tid : Nat)
    (hids : (st.map (·.id)).Nodup) :
    (reserveInventory st p q tid).1 = st.map fun r =>
      { r with
        availableQuantity := r.availableQuantity -
          takenOf (greedyTakes (fefoSort (availableCandidates st p tid)) q) r.id,
        reservedQuantity := r.reservedQuantity +
          takenOf (greedyTakes (fefoSort (availableCandidates st p tid)) q) r.id } :=
  congrArg Prod.fst (reserveInventory_spec st p q tid hids)

/-- Inversion of a successful `reserveInventory`: the returned list is
the greedy reservation of the FEFO-sorted candidates and the demand was
fully met. -/
theorem reserveInventory_ok_inv (st : InvState) (p : Nat) (q : Int) (tid : Nat)
    (res : List (Nat × Int)) (hids : (st.map (·.id)).Nodup)
    (hok : (reserveInventory st p q tid).2 = .ok res) :
    res = greedyTakes (fefoSort (availableCandidates st p tid)) q ∧
    ¬ (q - ((greedyTakes (fefoSort (availableCandidates st p tid)) q).map (·.2)).sum
        > 0) := by
  have hsnd := congrArg Prod.snd (reserveInventory_spec st p q tid hids)
  rw [hok] at hsnd
  by_cases hc :
      q - ((greedyTakes (fefoSort (availableCandidates st p tid)) q).map (·.2)).sum > 0
  · rw [if_pos hc] at hsnd
    exact absurd hsnd (by simp)
  · rw [if_neg hc] at hsnd
    exact ⟨(Except.ok.inj hsnd), hc⟩

theorem greedy_fst_nodup (st : InvState) (p tid : Nat) (q : Int)
    (hids : (st.map (·.id)).Nodup) :
    ((greedyTakes (fefoSort (availableCandidates st p tid)) q).map (·.1)).Nodup := by
  rw [greedyTakes_map_fst]
  exact (candidates_ids_nodup hids).sublist (List.take_sublist _ _)

theorem candidates_avail_pos {st : InvState} {p tid : Nat} {c : InventoryItem}
    (hc : c ∈ fefoSort (availableCandidates st p tid)) : 0 < c.availableQuantity :=
  (mem_availableCandidates.mp (mem_fefoSort.mp hc)).2.2.2

/-- Claim C5: `releaseReservedInventory` fails with the
cannot-release-more-than-reserved error and leaves the table untouched
when the quantity exceeds the addressed row's `reservedQuantity`;
otherwise it adds the quantity to `availableQuantity` and subtracts it
from `reservedQuantity` on the rows with that id only; and a reserve
that took `tq` units from a row followed by a release of `tq` on the
same row restores that row to its exact pre-reservation record. -/
theorem release_guard_and_reversal (st : InvState) :
    (∀ (i : Nat) (q : Int) (r0 : InventoryItem), findRow st i = some r0 →
      r0.reservedQuantity < q →
      releaseReservedInventory st i q = (st, .error .cannotReleaseMoreThanReserved)) ∧
    (∀ (i : Nat) (q : Int) (r0 : InventoryItem), findRow st i = some r0 →
      q ≤ r0.reservedQuantity →
      releaseReservedInventory st i q =
        (st.map fun r =>
          if r.id == i then
            { r with availableQuantity := r0.availableQuantity + q,
                     reservedQuantity := r0.reservedQuantity - q }
          else r,
         .ok ())) ∧
    (∀ (p tid : Nat) (qty : Int) (res : List (Nat × Int)) (i : Nat) (tq : Int)
        (r0 : InventoryItem),
      (st.map (·.id)).Nodup →
      (reserveInventory st p qty tid).2 = .ok res →
      (i, tq) ∈ res →
      findRow st i = some r0 →
      0 ≤ r0.reservedQuantity →
      (releaseReservedInventory (reserveInventory st p qty tid).1 i tq).2 = .ok () ∧
      findRow (releaseReservedInventory (reserveInventory st p qty tid).1 i tq).1 i =
        some r0) := by
  refine ⟨?_, ?_, ?_⟩
  · intro i q r0 hfind hgt
    have hC := filter_eq_cons_of_findRow hfind
    rw [release_eq_of_filter_cons st i q r0 _ hC, if_pos hgt]
  · intro i q r0 hfind hle
    have hC := filter_eq_cons_of_findRow hfind
    rw [release_eq_of_filter_cons st i q r0 _ hC, if_neg (by omega)]
  · intro p tid qty res i tq r0 hids hok hmem hfind hres0
    obtain ⟨hres, hfull⟩ := reserveInventory_ok_inv st p qty tid res hids hok
    set gt := greedyTakes (fefoSort (availableCandidates st p tid)) qty with hgt
    have hmemgt : (i, tq) ∈ gt := hres ▸ hmem
    have htaken : takenOf gt i = tq :=
      takenOf_of_mem (greedy_fst_nodup st p tid qty hids) hmemgt
    have htqpos : 0 < tq := by
      have hpos : ∀ c ∈ fefoSort (availableCandidates st p tid),
          0 < c.availableQuantity := fun c hc => candidates_avail_pos hc
      exact greedyTakes_entry_pos hpos hmemgt
    obtain ⟨hr0mem, hr0id⟩ := findRow_mem hfind
    set g : InventoryItem → InventoryItem := fun r =>
      { r with
        availableQuantity := r.availableQuantity - takenOf gt r.id,
        reservedQuantity := r.reservedQuantity + takenOf gt r.id } with hgdef
    have hgid : ∀ r, (g r).id = r.id := fun r => rfl
    have hfst : (reserveInventory st p qty tid).1 = st.map g :=
      reserveInventory_fst st p qty tid hids
    have hfind1 : findRow (reserveInventory st p qty tid).1 i = some (g r0) := by
      rw [hfst, findRow_map st g hgid i, hfind]
      rfl
    have hgr0 : (g r0).availableQuantity = r0.availableQuantity - tq ∧
        (g r0).reservedQuantity = r0.reservedQuantity + tq := by
      rw [hgdef]
      simp [hr0id, htaken]
    have hC1 := filter_eq_cons_of_findRow hfind1
    have hrel := release_eq_of_filter_cons (reserveInventory st p qty tid).1 i tq
      (g r0) _ hC1
    have hguard : ¬ ((g r0).reservedQuantity < tq) := by
      rw [hgr0.2]
      omega
    rw [hrel, if_neg hguard]
    refine ⟨rfl, ?_⟩
    show findRow ((reserveInventory st p qty tid).1.map _) i = some r0
    have hgid2 : ∀ r : InventoryItem,
        ((if r.id == i then
            { r with availableQuantity := (g r0).availableQuantity + tq,
                     reservedQuantity := (g r0).reservedQuantity - tq }
          else r) : InventoryItem).id = r.id := by
      intro r
      by_cases h : r.id == i
      · simp [h]
      · simp [h]
    rw [findRow_map _ _ hgid2 i, hfind1]
    have hidtrue : ((g r0).id == i) = true := by
      rw [hgid r0, hr0id]
      simp
    simp only [Option.map_some', hidtrue, eq_self_iff_true, if_true, Option.some.injEq]
    obtain ⟨rid, rtid, rpid, rexp, ra, rb⟩ := r0
    have hrid : rid = i := hr0id
    subst hrid
    simp only [hgdef] at *
    simp only [InventoryItem.mk.injEq] at *
    refine ⟨trivial, trivial, trivial, trivial, ?_, ?_⟩
    · omega
    · omega

theorem release_guard_and_reversal_witness :
    releaseReservedInventory ([⟨1, 1, 1, none, 5, 2⟩] : InvState) 1 8 =
      (([⟨1, 1, 1, none, 5, 2⟩] : InvState), .error .cannotReleaseMoreThanReserved) ∧
    releaseReservedInventory ([⟨1, 1, 1, none, 5, 2⟩] : InvState) 1 2 =
      ([⟨1, 1, 1, none, 7, 0⟩], .ok ()) ∧
    ((releaseReservedInventory
        (reserveInventory ([⟨1, 1, 1, none, 5, 2⟩] : InvState) 1 3 1).1 1 3).2 =
          .ok () ∧
      findRow (releaseReservedInventory
        (reserveInventory ([⟨1, 1, 1, none, 5, 2⟩] : InvState) 1 3 1).1 1 3).1 1 =
          some ⟨1, 1, 1, none, 5, 2⟩) := by
  refine ⟨?_, ?_, ?_⟩
  · exact (release_guard_and_reversal ([⟨1, 1, 1, none, 5, 2⟩] : InvState)).1 1 8
      ⟨1, 1, 1, none, 5, 2⟩ (by decide) (by decide)
  · exact ((release_guard_and_reversal ([⟨1, 1, 1, none, 5, 2⟩] : InvState)).2.1 1 2
      ⟨1, 1, 1, none, 5, 2⟩ (by decide) (by decide)).trans (by decide)
  · exact (release_guard_and_reversal ([⟨1, 1, 1, none, 5, 2⟩] : InvState)).2.2 1 1 3
      [(1, 3)] 1 3 ⟨1, 1, 1, none, 5, 2⟩ (by decide) (by decide) (by decide)
      (by decide) (by decide)

theorem adjust_preserves_reserved (st2 : InvState) (i2 ct2 : Nat) (ty : AdjustmentType)
    (q2 : Int) (r2 : String) :
    ((adjustInventory st2 i2 ct2 ty q2 r2).1).map (·.reservedQuantity) =
      st2.map (·.reservedQuantity) := by
  by_cases hv2 : adjustmentInputValid q2 r2 = false
  · simp [adjustInventory, hv2]
  · rcases hF : (st2.filter fun r => r.id == i2 && r.tenantId == ct2).take 1 with
      _ | ⟨ex2, rest2⟩
    · simp [adjustInventory, hv2, hF]
    · cases ty with
      | increase =>
        have hpost : (adjustInventory st2 i2 ct2 .increase q2 r2).1 =
            st2.map (fun r => if r.id == i2 then
              { r with availableQuantity := ex2.availableQuantity + q2 } else r) := by
          simp [adjustInventory, hv2, hF]
        rw [hpost, List.map_map]
        refine List.map_congr_left ?_
        intro r hr
        by_cases h : r.id = i2
        · simp [h]
        · simp [h]
      | decrease =>
        by_cases hneg : ex2.availableQuantity - q2 < 0
        · simp [adjustInventory, hv2, hF, hneg]
        · have hpost : (adjustInventory st2 i2 ct2 .decrease q2 r2).1 =
              st2.map (fun r => if r.id == i2 then
                { r with availableQuantity := ex2.availableQuantity - q2 } else r) := by
            simp [adjustInventory, hv2, hF, hneg]
          rw [hpost, List.map_map]
          refine List.map_congr_left ?_
          intro r hr
          by_cases h : r.id = i2
          · simp [h]
          · simp [h]

/-- Claim C6: for valid inputs and an existing row, a `decrease`
adjustment fails with the insufficient-stock error exactly when
`availableQuantity - quantity < 0` and leaves the table unmodified on
that failure; a decrease by exactly the current `availableQuantity`
succeeds and yields 0; and no adjust call, increase or decrease, on any
table ever modifies any row's `reservedQuantity`. -/
theorem adjust_decrease_boundary (st : InvState) (i ctid : Nat) (q : Int)
    (reason : String) (hv : adjustmentInputValid q reason = true)
    (ex : InventoryItem)
    (hfind : (st.filter fun r => r.id == i && r.tenantId == ctid).head? = some ex) :
    ((adjustInventory st i ctid .decrease q reason).2 = .error .insufficientStock ↔
      ex.availableQuantity - q < 0) ∧
    (ex.availableQuantity - q < 0 →
      adjustInventory st i ctid .decrease q reason = (st, .error .insufficientStock)) ∧
    (q = ex.availableQuantity →
      adjustInventory st i ctid .decrease q reason =
        (st.map fun r => if r.id == i then { r with availableQuantity := 0 } else r,
         .ok { ex with availableQuantity := 0 })) ∧
    (∀ (st2 : InvState) (i2 ct2 : Nat) (ty : AdjustmentType) (q2 : Int) (r2 : String),
      ((adjustInventory st2 i2 ct2 ty q2 r2).1).map (·.reservedQuantity) =
        st2.map (·.reservedQuantity)) := by
  have htake : (st.filter fun r => r.id == i && r.tenantId == ctid).take 1 = [ex] :=
    take_one_of_head _ ex hfind
  have hneg_eq : ex.availableQuantity - q < 0 →
      adjustInventory st i ctid .decrease q reason = (st, .error .insufficientStock) := by
    intro hn
    simp [adjustInventory, hv, htake, hn]
  have hpos_eq : ¬ (ex.availableQuantity - q < 0) →
      adjustInventory st i ctid .decrease q reason =
        (st.map fun r => if r.id == i then
          { r with availableQuantity := ex.availableQuantity - q } else r,
         .ok { ex with availableQuantity := ex.availableQuantity - q }) := by
    intro hn
    simp [adjustInventory, hv, htake, hn]
  refine ⟨?_, hneg_eq, ?_, fun st2 i2 ct2 ty q2 r2 => adjust_preserves_reserved st2 i2 ct2 ty q2 r2⟩
  · constructor
    · intro herr
      by_cases hn : ex.availableQuantity - q < 0
      · exact hn
      · rw [hpos_eq hn] at herr
        simp at herr
    · intro hn
      rw [hneg_eq hn]
  · intro hq
    have hn : ¬ (ex.availableQuantity - q < 0) := by omega
    have h0 : ex.availableQuantity - q = 0 := by omega
    rw [hpos_eq hn, h0]

theorem adjust_decrease_boundary_witness :
    ((adjustInventory ([⟨4, 1, 1, none, 5, 2⟩] : InvState) 4 1 .decrease 5 "fix").2 =
        .error .insufficientStock ↔ (5 : Int) - 5 < 0) ∧
    ((5 : Int) - 5 < 0 →
      adjustInventory ([⟨4, 1, 1, none, 5, 2⟩] : InvState) 4 1 .decrease 5 "fix" =
        (([⟨4, 1, 1, none, 5, 2⟩] : InvState), .error .insufficientStock)) ∧
    ((5 : Int) = 5 →
      adjustInventory ([⟨4, 1, 1, none, 5, 2⟩] : InvState) 4 1 .decrease 5 "fix" =
        (([⟨4, 1, 1, none, 5, 2⟩] : InvState).map fun r =>
          if r.id == 4 then { r with availableQuantity := 0 } else r,
         .ok ⟨4, 1, 1, none, 0, 2⟩)) ∧
    (∀ (st2 : InvState) (i2 ct2 : Nat) (ty : AdjustmentType) (q2 : Int) (r2 : String),
      ((adjustInventory st2 i2 ct2 ty q2 r2).1).map (·.reservedQuantity) =
        st2.map (·.reservedQuantity)) :=
  adjust_decrease_boundary ([⟨4, 1, 1, none, 5, 2⟩] : InvState) 4 1 5 "fix"
    (by decide) ⟨4, 1, 1, none, 5, 2⟩ (by decide)

/-- Claim C3: along any finite sequence of reserve, release and adjust
calls, the total `availableQuantity + reservedQuantity` over the rows
of one product changes exactly by the accumulated quantities of the
successful adjust calls on rows of that product (`increase` adds the
quantity, `decrease` subtracts it); in particular any single reserve or
release call - successful or not - leaves the total unchanged. -/
theorem reserve_release_adjust_conservation (st : InvState) (ops : List WmsOp)
    (pid tid : Nat) (hids : (st.map (·.id)).Nodup) :
    productMass (runOps st ops) pid tid =
      productMass st pid tid + netAdjust st pid tid ops ∧
    (∀ (p : Nat) (q : Int) (t : Nat),
      productMass (applyOp st (.reserve p q t)) pid tid = productMass st pid tid) ∧
    (∀ (i : Nat) (q : Int),
      productMass (applyOp st (.release i q)) pid tid = productMass st pid tid) := by
  refine ⟨?_, ?_, ?_⟩
  · induction ops generalizing st with
    | nil => simp [runOps, netAdjust]
    | cons op ops ih =>
      have hids1 : ((applyOp st op).map (·.id)).Nodup := by
        rw [applyOp_map_id st op hids]
        exact hids
      show productMass (runOps (applyOp st op) ops) pid tid = _
      rw [ih (applyOp st op) hids1, productMass_applyOp st pid tid op hids]
      show _ = productMass st pid tid +
        (adjustDelta st pid tid op + netAdjust (applyOp st op) pid tid ops)
      ring
  · intro p q t
    have h := productMass_applyOp st pid tid (.reserve p q t) hids
    have hd : adjustDelta st pid tid (.reserve p q t) = 0 := rfl
    rw [h, hd, add_zero]
  · intro i q
    have h := productMass_applyOp st pid tid (.release i q) hids
    have hd : adjustDelta st pid tid (.release i q) = 0 := rfl
    rw [h, hd, add_zero]

theorem reserve_release_adjust_conservation_witness :
    productMass
        (runOps ([⟨1, 1, 1, some 10, 5, 0⟩, ⟨2, 1, 1, none, 4, 1⟩] : InvState)
          [.reserve 1 6 1, .adjust 1 1 .increase 10 "restock", .release 2 1,
            .adjust 2 1 .decrease 2 "damaged", .reserve 1 100 1]) 1 1 =
      productMass ([⟨1, 1, 1, some 10, 5, 0⟩, ⟨2, 1, 1, none, 4, 1⟩] : InvState) 1 1 +
        netAdjust ([⟨1, 1, 1, some 10, 5, 0⟩, ⟨2, 1, 1, none, 4, 1⟩] : InvState) 1 1
          [.reserve 1 6 1, .adjust 1 1 .increase 10 "restock", .release 2 1,
            .adjust 2 1 .decrease 2 "damaged", .reserve 1 100 1] ∧
    (∀ (p : Nat) (q : Int) (t : Nat),
      productMass
          (applyOp ([⟨1, 1, 1, some 10, 5, 0⟩, ⟨2, 1, 1, none, 4, 1⟩] : InvState)
            (.reserve p q t)) 1 1 =
        productMass ([⟨1, 1, 1, some 10, 5, 0⟩, ⟨2, 1, 1, none, 4, 1⟩] : InvState) 1 1) ∧
    (∀ (i : Nat) (q : Int),
      productMass
          (applyOp ([⟨1, 1, 1, some 10, 5, 0⟩, ⟨2, 1, 1, none, 4, 1⟩] : InvState)
            (.release i q)) 1 1 =
        productMass ([⟨1, 1, 1, some 10, 5, 0⟩, ⟨2, 1, 1, none, 4, 1⟩] : InvState) 1 1) :=
  reserve_release_adjust_conservation
    ([⟨1, 1, 1, some 10, 5, 0⟩, ⟨2, 1, 1, none, 4, 1⟩] : InvState)
    [.reserve 1 6 1, .adjust 1 1 .increase 10 "restock", .release 2 1,
      .adjust 2 1 .decrease 2 "damaged", .reserve 1 100 1] 1 1 (by decide)

/-- Claim C4: a successful reserve with positive quantity returns a
non-empty reservation list whose per-row quantities sum to exactly the
requested quantity; the list walks the FEFO-ordered candidates in
order, each entry taking `min(remainingDemand, availableQuantity)` of
its row; and every table row ends with its `availableQuantity`
decremented and its `reservedQuantity` incremented by exactly its
entry's amount (zero for untouched rows). -/
theorem reserve_success_greedy_postcondition (st : InvState) (p tid : Nat) (q : Int)
    (res : List (Nat × Int)) (hids : (st.map (·.id)).Nodup) (hq : 0 < q)
    (hok : (reserveInventory st p q tid).2 = .ok res) :
    res ≠ [] ∧
    (res.map (·.2)).sum = q ∧
    res.map (·.1) =
      ((fefoSort (availableCandidates st p tid)).map (·.id)).take res.length ∧
    (∀ (k : Nat) (e : Nat × Int), res[k]? = some e →
      ∃ c, (fefoSort (availableCandidates st p tid))[k]? = some c ∧
        e.1 = c.id ∧
        e.2 = min (q - ((res.take k).map (·.2)).sum) c.availableQuantity) ∧
    (∀ r ∈ st, ∃ r2, findRow (reserveInventory st p q tid).1 r.id = some r2 ∧
      r2.availableQuantity = r.availableQuantity - takenOf res r.id ∧
      r2.reservedQuantity = r.reservedQuantity + takenOf res r.id) := by
  obtain ⟨hres, hfull⟩ := reserveInventory_ok_inv st p q tid res hids hok
  subst hres
  set gt := greedyTakes (fefoSort (availableCandidates st p tid)) q with hgt
  have hle := greedyTakes_sum_le (fefoSort (availableCandidates st p tid)) q
  have hmax : max q 0 = q := max_eq_left (by omega)
  rw [hmax, ← hgt] at hle
  have hsum : (gt.map (·.2)).sum = q := by omega
  refine ⟨?_, hsum, ?_, ?_, ?_⟩
  · intro hnil
    rw [hnil] at hsum
    simp at hsum
    omega
  · rw [hgt]
    exact greedyTakes_map_fst _ q
  · intro k e he
    rw [hgt] at he ⊢
    exact greedyTakes_getElem _ q k e he
  · intro r hr
    refine ⟨{ r with
        availableQuantity := r.availableQuantity - takenOf gt r.id,
        reservedQuantity := r.reservedQuantity + takenOf gt r.id }, ?_, rfl, rfl⟩
    rw [reserveInventory_fst st p q tid hids,
      findRow_map st (fun x : InventoryItem =>
        { x with
          availableQuantity := x.availableQuantity -
            takenOf (greedyTakes (fefoSort (availableCandidates st p tid)) q) x.id,
          reservedQuantity := x.reservedQuantity +
            takenOf (greedyTakes (fefoSort (availableCandidates st p tid)) q) x.id })
        (fun x => rfl) r.id,
      findRow_eq_self hids hr]
    rfl

theorem reserve_success_greedy_postcondition_witness :
    ([((1 : Nat), (2 : Int)), (2, 1)] : List (Nat × Int)) ≠ [] ∧
    (([((1 : Nat), (2 : Int)), (2, 1)] : List (Nat × Int)).map (·.2)).sum = 3 ∧
    ([((1 : Nat), (2 : Int)), (2, 1)] : List (Nat × Int)).map (·.1) =
      ((fefoSort (availableCandidates
          ([⟨1, 1, 1, some 5, 2, 0⟩, ⟨2, 1, 1, none, 4, 0⟩] : InvState) 1 1)).map
        (·.id)).take ([((1 : Nat), (2 : Int)), (2, 1)] : List (Nat × Int)).length ∧
    (∀ (k : Nat) (e : Nat × Int),
      ([((1 : Nat), (2 : Int)), (2, 1)] : List (Nat × Int))[k]? = some e →
      ∃ c, (fefoSort (availableCandidates
          ([⟨1, 1, 1, some 5, 2, 0⟩, ⟨2, 1, 1, none, 4, 0⟩] : InvState) 1 1))[k]? =
            some c ∧
        e.1 = c.id ∧
        e.2 = min ((3 : Int) -
          ((([((1 : Nat), (2 : Int)), (2, 1)] : List (Nat × Int)).take k).map (·.2)).sum)
          c.availableQuantity) ∧
    (∀ r ∈ ([⟨1, 1, 1, some 5, 2, 0⟩, ⟨2, 1, 1, none, 4, 0⟩] : InvState),
      ∃ r2, findRow (reserveInventory
          ([⟨1, 1, 1, some 5, 2, 0⟩, ⟨2, 1, 1, none, 4, 0⟩] : InvState) 1 3 1).1 r.id =
            some r2 ∧
        r2.availableQuantity = r.availableQuantity -
          takenOf ([((1 : Nat), (2 : Int)), (2, 1)] : List (Nat × Int)) r.id ∧
        r2.reservedQuantity = r.reservedQuantity +
          takenOf ([((1 : Nat), (2 : Int)), (2, 1)] : List (Nat × Int)) r.id) :=
  reserve_success_greedy_postcondition
    ([⟨1, 1, 1, some 5, 2, 0⟩, ⟨2, 1, 1, none, 4, 0⟩] : InvState) 1 1 3
    [((1 : Nat), (2 : Int)), (2, 1)] (by decide) (by decide) (by decide)

/-- Claim C2: FEFO ordering - the candidates are walked in ascending
`expiryDate` order with null-expiry rows last, so whenever a reserve
call takes any units from a row without an expiry date, every dated row
of that product and tenant ends the call with `availableQuantity` 0;
and on the spec's example rows `[2024-01-01: 5, 2024-06-01: 10,
null: 20]`, `reserve(8)` takes 5 from the first row and 3 from the
second, leaving available quantities `[0, 7, 20]`. -/
theorem reserve_fefo_null_expiry_last (st : InvState) (p tid : Nat) (q : Int)
    (hids : (st.map (·.id)).Nodup)
    (h0 : ∀ r ∈ st, 0 ≤ r.availableQuantity)
    (rn : InventoryItem) (hrn : rn ∈ st) (hnull : rn.expiryDate = none)
    (rn2 : InventoryItem)
    (htouch : findRow (reserveInventory st p q tid).1 rn.id = some rn2)
    (hdec : rn2.availableQuantity < rn.availableQuantity) :
    (∀ s ∈ st, s.productId = p → s.tenantId = tid → s.expiryDate ≠ none →
      ∃ s2, findRow (reserveInventory st p q tid).1 s.id = some s2 ∧
        s2.availableQuantity = 0) ∧
    reserveInventory
        ([⟨1, 1, 1, some 20240101, 5, 0⟩, ⟨2, 1, 1, some 20240601, 10, 0⟩,
          ⟨3, 1, 1, none, 20, 0⟩] : InvState) 1 8 1 =
      ([⟨1, 1, 1, some 20240101, 0, 5⟩, ⟨2, 1, 1, some 20240601, 7, 3⟩,
        ⟨3, 1, 1, none, 20, 0⟩], .ok [(1, 5), (2, 3)]) := by
  have hfr : ∀ r ∈ st, findRow (reserveInventory st p q tid).1 r.id =
      some { r with
        availableQuantity := r.availableQuantity -
          takenOf (greedyTakes (fefoSort (availableCandidates st p tid)) q) r.id,
        reservedQuantity := r.reservedQuantity +
          takenOf (greedyTakes (fefoSort (availableCandidates st p tid)) q) r.id } := by
    intro r hr
    rw [reserveInventory_fst st p q tid hids,
      findRow_map st (fun x : InventoryItem =>
        { x with
          availableQuantity := x.availableQuantity -
            takenOf (greedyTakes (fefoSort (availableCandidates st p tid)) q) x.id,
          reservedQuantity := x.reservedQuantity +
            takenOf (greedyTakes (fefoSort (availableCandidates st p tid)) q) x.id })
        (fun x => rfl) r.id,
      findRow_eq_self hids hr]
    rfl
  have hrn2eq : rn2 = { rn with
      availableQuantity := rn.availableQuantity -
        takenOf (greedyTakes (fefoSort (availableCandidates st p tid)) q) rn.id,
      reservedQuantity := rn.reservedQuantity +
        takenOf (greedyTakes (fefoSort (availableCandidates st p tid)) q) rn.id } := by
    have h1 := hfr rn hrn
    rw [htouch] at h1
    exact Option.some.inj h1
  have htpos : 0 < takenOf (greedyTakes (fefoSort (availableCandidates st p tid)) q)
      rn.id := by
    rw [hrn2eq] at hdec
    simp only at hdec
    omega
  have hmemid : rn.id ∈
      (greedyTakes (fefoSort (availableCandidates st p tid)) q).map (·.1) := by
    by_contra hnot
    rw [takenOf_eq_zero hnot] at htpos
    omega
  obtain ⟨pk, hpk, hpkid⟩ := List.mem_map.mp hmemid
  obtain ⟨k, hk, hgk⟩ := List.getElem_of_mem hpk
  have hgkq : (greedyTakes (fefoSort (availableCandidates st p tid)) q)[k]? = some pk := by
    rw [List.getElem?_eq_getElem hk, hgk]
  obtain ⟨c, hcq, hcid, hcmin⟩ :=
    greedyTakes_getElem (fefoSort (availableCandidates st p tid)) q k pk hgkq
  obtain ⟨hklt, hce⟩ := List.getElem?_eq_some.mp hcq
  have hcmem : c ∈ fefoSort (availableCandidates st p tid) := hce ▸ List.getElem_mem hklt
  have hcst : c ∈ st := (mem_availableCandidates.mp (mem_fefoSort.mp hcmem)).1
  have hceq : c = rn := row_eq_of_id_eq hids hcst hrn (by rw [← hcid, hpkid])
  refine ⟨?_, by decide⟩
  intro s hs hsp hst hsd
  by_cases hsa : 0 < s.availableQuantity
  · have hsmem : s ∈ fefoSort (availableCandidates st p tid) :=
      mem_fefoSort.mpr (mem_availableCandidates.mpr ⟨hs, hsp, hst, hsa⟩)
    obtain ⟨j, hj, hgj⟩ := List.getElem_of_mem hsmem
    have hjk : j < k := by
      rcases lt_trichotomy j k with h | h | h
      · exact h
      · exfalso
        have h1 : (fefoSort (availableCandidates st p tid))[j]? = some s := by
          rw [List.getElem?_eq_getElem hj, hgj]
        rw [h, hcq] at h1
        have h2 : s = rn := by
          rw [← Option.some.inj h1, hceq]
        rw [h2] at hsd
        exact hsd hnull
      · exfalso
        have hpw := fefoSort_pairwise (availableCandidates st p tid)
        have hrel := List.pairwise_iff_get.mp hpw ⟨k, hklt⟩ ⟨j, hj⟩ h
        rw [List.get_eq_getElem, List.get_eq_getElem] at hrel
        rw [hce, hceq, hgj] at hrel
        cases hse : s.expiryDate with
        | none => exact hsd hse
        | some d =>
          rw [fefoLE, hnull, hse] at hrel
          simp at hrel
    have hksome :
        ((greedyTakes (fefoSort (availableCandidates st p tid)) q)[k]?).isSome = true := by
      rw [hgkq]
      rfl
    obtain ⟨c2, hc2q, hgjq⟩ :=
      greedyTakes_full_before (fefoSort (availableCandidates st p tid)) q j k hjk hksome
    have hc2eq : c2 = s := by
      have hjs : (fefoSort (availableCandidates st p tid))[j]? = some s := by
        rw [List.getElem?_eq_getElem hj, hgj]
      rw [hjs] at hc2q
      exact (Option.some.inj hc2q).symm
    rw [hc2eq] at hgjq
    have hmem2 : (s.id, s.availableQuantity) ∈
        greedyTakes (fefoSort (availableCandidates st p tid)) q := by
      obtain ⟨hlt2, he2⟩ := List.getElem?_eq_some.mp hgjq
      exact he2 ▸ List.getElem_mem hlt2
    have htk : takenOf (greedyTakes (fefoSort (availableCandidates st p tid)) q) s.id =
        s.availableQuantity :=
      takenOf_of_mem (greedy_fst_nodup st p tid q hids) hmem2
    refine ⟨_, hfr s hs, ?_⟩
    simp only [htk]
    ring
  · have hsa0 : s.availableQuantity = 0 := le_antisymm (not_lt.mp hsa) (h0 s hs)
    have hnotin : s.id ∉
        (greedyTakes (fefoSort (availableCandidates st p tid)) q).map (·.1) := by
      intro hin
      obtain ⟨pk2, hpk2, hpk2id⟩ := List.mem_map.mp hin
      have hpk2m : pk2.1 ∈ (fefoSort (availableCandidates st p tid)).map (·.id) :=
        greedyTakes_fst_mem hpk2
      obtain ⟨c3, hc3, hc3id⟩ := List.mem_map.mp hpk2m
      have hc3st : c3 ∈ st := (mem_availableCandidates.mp (mem_fefoSort.mp hc3)).1
      have hc3eq : c3 = s := row_eq_of_id_eq hids hc3st hs (by rw [hc3id, hpk2id])
      have hpos3 : 0 < c3.availableQuantity := candidates_avail_pos hc3
      rw [hc3eq] at hpos3
      omega
    have htk0 : takenOf (greedyTakes (fefoSort (availableCandidates st p tid)) q) s.id
        = 0 := takenOf_eq_zero hnotin
    refine ⟨_, hfr s hs, ?_⟩
    simp only [htk0, hsa0]
    ring

theorem reserve_fefo_null_expiry_last_witness :
    (∀ s ∈ ([⟨1, 1, 1, some 5, 2, 0⟩, ⟨3, 1, 1, none, 20, 0⟩] : InvState),
      s.productId = 1 → s.tenantId = 1 → s.expiryDate ≠ none →
      ∃ s2, findRow (reserveInventory
          ([⟨1, 1, 1, some 5, 2, 0⟩, ⟨3, 1, 1, none, 20, 0⟩] : InvState) 1 5 1).1
          s.id = some s2 ∧
        s2.availableQuantity = 0) ∧
    reserveInventory
        ([⟨1, 1, 1, some 20240101, 5, 0⟩, ⟨2, 1, 1, some 20240601, 10, 0⟩,
          ⟨3, 1, 1, none, 20, 0⟩] : InvState) 1 8 1 =
      ([⟨1, 1, 1, some 20240101, 0, 5⟩, ⟨2, 1, 1, some 20240601, 7, 3⟩,
        ⟨3, 1, 1, none, 20, 0⟩], .ok [(1, 5), (2, 3)]) :=
  reserve_fefo_null_expiry_last
    ([⟨1, 1, 1, some 5, 2, 0⟩, ⟨3, 1, 1, none, 20, 0⟩] : InvState) 1 1 5
    (by decide) (by decide) ⟨3, 1, 1, none, 20, 0⟩ (by decide) rfl
    ⟨3, 1, 1, none, 17, 3⟩ (by decide) (by decide)
